import Mathlib

/-!
Shallow embedding of the gojq CLI pipeline (src/cli/cli.go, v0.12.3, and the
older src/unnamed/part_000, v0.7.0) together with theorems checking the
natural-language specification against it.

The embedding models:
* the untyped value union produced by the input decoders,
* Go error values as seen through the two interfaces the CLI probes
  (`ExitCode() int` and `IsEmptyError() bool`),
* the configuration validation prefix of `runInternal`,
* the orchestrator loop `process` / `printValues` with its output trace,
  exit-status accumulator and YAML separator state,
* the marshaler selection `createMarshaler`,
* the color decision of `runInternal` lines 128-142 with `isTTY`,
* the `exec` / `execpipe` filters (`funcExecImpl`), the child process being
  abstracted as an oracle,
* the v0.7.0 `processJSON` slurp loop.
-/

/-- The untyped data value (`interface{}` in the Go source): null, booleans,
numbers, strings, arrays and string-keyed objects. -/
inductive Value where
  | null : Value
  | bool (b : Bool) : Value
  | num (n : Int) : Value
  | str (s : String) : Value
  | arr (vs : List Value) : Value
  | obj (kvs : List (String × Value)) : Value

/-- The falsy test from `printValues` (cli.go line 376): `v == nil || v == false`. -/
def isFalsy (v : Value) : Bool :=
  match v with
  | .null => true
  | .bool b => !b
  | _ => false

/-- Exit codes, cli.go lines 26-33 (iota). -/
def exitCodeOK : Nat := 0

def exitCodeFalsyErr : Nat := 1

def exitCodeFlagParseErr : Nat := 2

def exitCodeCompileErr : Nat := 3

def exitCodeNoValueErr : Nat := 4

def exitCodeDefaultErr : Nat := 5

/-- A Go error value as the CLI observes it: its `Error()` message, the result
of the `interface\x7b ExitCode() int \x7d` type assertion (`none` when the error
does not implement it), and the result of the `IsEmptyError` probe of
`printError` (`false` when not implemented). -/
structure GoErr where
  msg : String
  exitCode : Option Nat
  isEmpty : Bool
deriving DecidableEq

/-- An ordinary error such as a decode error or an evaluator runtime error:
it implements neither `ExitCode` nor `IsEmptyError`. -/
def plainErr (e : GoErr) : Prop := e.exitCode = none ∧ e.isEmpty = false

/-- Modelled from the spec: the "empty" error wrapper (spec §7) marks an error
as already reported, so the top level does not print it a second time; its
`Error()` string is empty, it reports `IsEmptyError`, and its exit code is the
wrapped error's exit code when the wrapped error has one, else the
unclassified/default failure code (the run "still exits non-zero").  The file
defining it (error.go) is not under src/; only its construction sites in
cli.go are. -/
def emptyError (e : GoErr) : GoErr :=
  { msg := "", exitCode := some (e.exitCode.getD exitCodeDefaultErr), isEmpty := true }

/-- Modelled from the spec: the exit-status sentinel error (spec §7), "not a
real failure — used purely to carry the computed exit code out of the run";
it reports `IsEmptyError` so it is never printed.  Defined in error.go, which
is not under src/. -/
def mkExitCodeError (c : Nat) : GoErr :=
  { msg := "exit code error", exitCode := some c, isEmpty := true }

/-- The output-related flags of the cli struct (cli.go lines 40-46). -/
structure Cfg where
  outputCompact : Bool
  outputRaw : Bool
  outputJoin : Bool
  outputNul : Bool
  outputYAML : Bool
  outputIndent : Option Int
  outputTab : Bool
deriving DecidableEq

/-- The indentation validation of `runInternal` (cli.go lines 143-149):
`none` means the check passes. -/
def checkIndentation (ind : Option Int) : Option String :=
  match ind with
  | none => none
  | some i =>
    if i > 9 then some ("too many indentation count: " ++ toString i)
    else if i < 0 then some ("negative indentation count: " ++ toString i)
    else none

/-- The fatal configuration checks of `runInternal` that run before any input
is read (cli.go lines 143-152): first the indentation bound, then the
YAML-output/tab combination. -/
def validateConfig (cfg : Cfg) : Except String Unit :=
  match checkIndentation cfg.outputIndent with
  | some e => Except.error e
  | none =>
    if cfg.outputYAML && cfg.outputTab then Except.error "cannot use tabs for YAML output"
    else Except.ok ()

/-- One write to the output stream, abstracted by kind: the YAML document
separator `---\n`, the marshaled bytes of a value, the trailing newline, or
the trailing NUL byte. -/
inductive OutEv where
  | sep : OutEv
  | doc (v : Value) : OutEv
  | nl : OutEv
  | nul : OutEv

/-- The orchestrator's per-run mutable state held on the cli struct:
`outputYAMLSeparator` (cli.go line 56) and `exitCodeError` (line 57, `none`
models the nil pointer, `some c` models `&exitCodeError\x7bc\x7d`). -/
structure RunSt where
  yamlSep : Bool
  exitErr : Option Nat

/-- Result of one `printValues` call: output-stream writes, the updated cli
state, and the returned error (`none` models a nil return). -/
structure PVOut where
  out : List OutEv
  st : RunSt
  err : Option GoErr

/-- `printValues` (cli.go lines 357-391): drains one evaluator result
iterator.  A result error is returned immediately (the rest of the iterator
is not consumed); a result value first writes the YAML separator when the
flag is set (otherwise arms the flag in YAML mode), then the marshaled value,
then updates the exit-status accumulator when enabled, then writes the
terminator unless in join or YAML mode. -/
def printValues (cfg : Cfg) : List (GoErr ⊕ Value) → RunSt → PVOut
  | [], st => ⟨[], st, none⟩
  | Sum.inl e :: _, st => ⟨[], st, some e⟩
  | Sum.inr v :: rest, st =>
    let sepEvs : List OutEv := if st.yamlSep then [OutEv.sep] else []
    let st1 : RunSt := if st.yamlSep then st else { st with yamlSep := cfg.outputYAML }
    let st2 : RunSt :=
      match st1.exitErr with
      | none => st1
      | some _ =>
        { st1 with exitErr := some (if isFalsy v then exitCodeFalsyErr else exitCodeOK) }
    let termEvs : List OutEv :=
      if !cfg.outputJoin && !cfg.outputYAML then
        (if cfg.outputNul then [OutEv.nul] else [OutEv.nl])
      else []
    let p := printValues cfg rest st2
    ⟨sepEvs ++ OutEv.doc v :: (termEvs ++ p.out), p.st, p.err⟩

/-- `printError` (cli.go lines 423-427) as the list of diagnostic lines it
writes: nothing when the error reports `IsEmptyError`, else one prefixed
line. -/
def printErrorDiag (e : GoErr) : List String :=
  if e.isEmpty then [] else ["gojq: " ++ e.msg]

/-- Result of `process`: output-stream writes, diagnostic (error-stream)
lines, the final cli state, and the error value held in the loop's `err`
variable at exhaustion. -/
structure ProcOut where
  out : List OutEv
  errs : List String
  st : RunSt
  err : Option GoErr

/-- The loop's `err` variable after one record is handled: a nil error from
`printValues` keeps it, a non-nil one overwrites it with the empty-error
wrapper (cli.go lines 347, 352). -/
def accAfter (acc : Option GoErr) : Option GoErr → Option GoErr
  | none => acc
  | some e => some (emptyError e)

/-- The diagnostic lines printed for one record's error, if any
(cli.go lines 346, 351). -/
def diagAfter : Option GoErr → List String
  | none => []
  | some e => printErrorDiag e

/-- `process` (cli.go lines 338-355): pull each input record; an error record
is printed and wrapped as the (overwritten) running `err`; a value record is
evaluated and its results drained by `printValues`, whose returned error is
likewise printed and wrapped.  The loop never aborts early. -/
def process (cfg : Cfg) (eval : Value → List (GoErr ⊕ Value)) :
    List (GoErr ⊕ Value) → RunSt → Option GoErr → ProcOut
  | [], st, acc => ⟨[], [], st, acc⟩
  | Sum.inl e :: rest, st, _acc =>
    let p := process cfg eval rest st (some (emptyError e))
    ⟨p.out, printErrorDiag e ++ p.errs, p.st, p.err⟩
  | Sum.inr v :: rest, st, acc =>
    let q := printValues cfg (eval v) st
    let p := process cfg eval rest q.st (accAfter acc q.err)
    ⟨q.out ++ p.out, diagAfter q.err ++ p.errs, p.st, p.err⟩

/-- The cli state at the start of `process`: the zero-valued separator flag
and, when exit-status mode is on, the accumulator initialized to the
"no value" code (cli.go line 197). -/
def initSt (exitStatus : Bool) : RunSt :=
  ⟨false, if exitStatus then some exitCodeNoValueErr else none⟩

/-- `process` as called from `runInternal` (cli.go line 255), with the loop's
`err` variable starting at nil. -/
def runProc (exitStatus : Bool) (cfg : Cfg) (eval : Value → List (GoErr ⊕ Value))
    (inputs : List (GoErr ⊕ Value)) : ProcOut :=
  process cfg eval inputs (initSt exitStatus) none

/-- The deferred exit-status rewrite of `runInternal` (cli.go lines 196-203):
when exit-status mode is on and the returned error either implements no
`ExitCode` or reports code 0, it is replaced by the sentinel carrying the
accumulator. -/
def runFinalErr (exitStatus : Bool) (procErr : Option GoErr) (accCode : Option Nat) :
    Option GoErr :=
  if exitStatus then
    match procErr with
    | none => some (mkExitCodeError (accCode.getD exitCodeNoValueErr))
    | some e =>
      match e.exitCode with
      | none => some (mkExitCodeError (accCode.getD exitCodeNoValueErr))
      | some c =>
        if c = 0 then some (mkExitCodeError (accCode.getD exitCodeNoValueErr)) else some e
  else procErr

/-- A whole run after configuration validation: output writes, diagnostic
lines, and the process exit code. -/
structure RunOut where
  out : List OutEv
  errs : List String
  exitCode : Nat

/-- `run` (cli.go lines 88-97) applied to the result of `process` and the
deferred rewrite: a nil error exits 0; otherwise the error is printed
(subject to empty-error suppression) and its `ExitCode` is the process exit
code, defaulting to the unclassified failure code. -/
def runAfterValidate (exitStatus : Bool) (cfg : Cfg) (eval : Value → List (GoErr ⊕ Value))
    (inputs : List (GoErr ⊕ Value)) : RunOut :=
  let p := runProc exitStatus cfg eval inputs
  match runFinalErr exitStatus p.err p.st.exitErr with
  | none => ⟨p.out, p.errs, exitCodeOK⟩
  | some e => ⟨p.out, p.errs ++ printErrorDiag e, e.exitCode.getD exitCodeDefaultErr⟩

/-- The run including the fatal configuration checks: a configuration error
is printed before any input is read and the process exits with the default
failure code (configuration errors implement no `ExitCode`). -/
def runPipeline (exitStatus : Bool) (cfg : Cfg) (eval : Value → List (GoErr ⊕ Value))
    (inputs : List (GoErr ⊕ Value)) : RunOut :=
  match validateConfig cfg with
  | Except.error e => ⟨[], ["gojq: " ++ e], exitCodeDefaultErr⟩
  | Except.ok _ => runAfterValidate exitStatus cfg eval inputs

/-- The values a `printValues` call prints from one result list: the prefix
of value items before the first error item. -/
def printedOfResults : List (GoErr ⊕ Value) → List Value
  | [] => []
  | Sum.inl _ :: _ => []
  | Sum.inr v :: rest => v :: printedOfResults rest

/-- All values printed during a run, across all input records in order. -/
def runPrintedVals (eval : Value → List (GoErr ⊕ Value)) :
    List (GoErr ⊕ Value) → List Value
  | [] => []
  | Sum.inl _ :: rest => runPrintedVals eval rest
  | Sum.inr v :: rest => printedOfResults (eval v) ++ runPrintedVals eval rest

/-- The exit-status update of `printValues` for one printed value
(cli.go lines 375-381). -/
def falsyCode (v : Value) : Nat :=
  if isFalsy v then exitCodeFalsyErr else exitCodeOK

/-- The accumulator after a sequence of printed values, starting from `c`:
each printed value overwrites it. -/
def lastCode (c : Nat) (vs : List Value) : Nat :=
  vs.foldl (fun _ v => falsyCode v) c

/-- The output-stream writes of a YAML-mode run that prints `vs`, given the
separator flag's value at the start: a `---` line before each document
whenever the flag is armed, the flag arming after the first document. -/
def yamlEvsFrom : Bool → List Value → List OutEv
  | _, [] => []
  | b, v :: vs => (if b then [OutEv.sep] else []) ++ OutEv.doc v :: yamlEvsFrom true vs

/-- The claim's shape for YAML multi-document output: the first document
bare, and a literal `---` separator immediately before every later
document. -/
def yamlSepDocs : List Value → List OutEv
  | [] => []
  | v :: vs => OutEv.doc v :: (vs.map fun w => [OutEv.sep, OutEv.doc w]).flatten

/-- Every error record of the input iterator is an ordinary error. -/
def plainInputs (inputs : List (GoErr ⊕ Value)) : Prop :=
  ∀ e, Sum.inl e ∈ inputs → plainErr e

/-- Every error item any evaluator result sequence can contain is an
ordinary error. -/
def plainEval (eval : Value → List (GoErr ⊕ Value)) : Prop :=
  ∀ v e, Sum.inl e ∈ eval v → plainErr e

/-- What the orchestrator's running `err` variable holds once a failure was
recorded: an empty-error wrapper around an ordinary error. -/
def wrappedErr (g : GoErr) : Prop :=
  g.isEmpty = true ∧ g.exitCode = some exitCodeDefaultErr

/-- `isTTY` (cli.go lines 429-436): a terminal-type variable valued `dumb`
forces `false`; otherwise the file-descriptor terminal probe, abstracted
as a boolean. -/
def isTTY (termEnv : String) (fdTerminal : Bool) : Bool :=
  if termEnv = "dumb" then false else fdTerminal

/-- The color decision of `runInternal` (cli.go lines 128-135): an explicit
color or monochrome flag decides alone; otherwise a non-empty `NO_COLOR`
environment value disables color; otherwise the TTY probe decides.
(`""` models an unset environment variable, as `os.Getenv` returns.) -/
def computeNoColor (outputColor outputMono : Bool) (noColorEnv termEnv : String)
    (fdTerminal : Bool) : Bool :=
  if outputColor || outputMono then outputMono
  else if noColorEnv ≠ "" then true
  else !(isTTY termEnv fdTerminal)

/-- The marshaler chosen by `createMarshaler`: the YAML formatter, the JSON
encoder with its tab flag and indent width, or the raw decorator around an
encoder. -/
inductive Marshaler where
  | yamlFmt (indent : Option Int) : Marshaler
  | jsonEnc (tab : Bool) (indent : Int) : Marshaler
  | rawWrap (m : Marshaler) : Marshaler
deriving DecidableEq

/-- `createMarshaler` (cli.go lines 393-410): YAML output takes the YAML
formatter; otherwise the JSON encoder with indent 0 under compact, 1 under
tab, the requested indent when given, else 2 — wrapped in the raw decorator
when any of raw-output, join-output or NUL-output is set. -/
def createMarshaler (cfg : Cfg) : Marshaler :=
  if cfg.outputYAML then Marshaler.yamlFmt cfg.outputIndent
  else
    let indent : Int :=
      if cfg.outputCompact then 0
      else if cfg.outputTab then 1
      else
        match cfg.outputIndent with
        | some i => i
        | none => 2
    let f := Marshaler.jsonEnc cfg.outputTab indent
    if cfg.outputRaw || cfg.outputJoin || cfg.outputNul then Marshaler.rawWrap f else f

/-- Modelled from the spec: rendering a value through a marshaler.  The raw
decorator (spec §4.2) — "if the Value is a string, emits its raw bytes
unquoted/unescaped instead of delegating; otherwise delegates unchanged" —
around base JSON/YAML encodings abstracted as parameters, since the encoder
sources (encoder.go, marshaler.go) are not under src/. -/
def marshalWith (jenc : Bool → Int → Value → String) (yenc : Option Int → Value → String) :
    Marshaler → Value → String
  | Marshaler.yamlFmt ind, v => yenc ind v
  | Marshaler.jsonEnc tab ind, v => jenc tab ind v
  | Marshaler.rawWrap m, v =>
    match v with
    | Value.str s => s
    | v => marshalWith jenc yenc m v

/-- Outcome of attempting to run the child process: it cannot start, or it
ran to completion with an exit status and captured standard output. -/
inductive ProcRes where
  | startErr (msg : String) : ProcRes
  | done (exitCode : Int) (stdout : String) : ProcRes

/-- The child process abstracted as an oracle: executable path, argument
list, bytes supplied on standard input. -/
abbrev ProcOracle := String → List String → String → ProcRes

/-- `cmd.Output()` as observed by `funcExecImpl` (cli.go line 291): an error
when the child cannot start or exits non-zero, else the captured standard
output, verbatim. -/
def cmdOutput (r : ProcRes) : Except String String :=
  match r with
  | ProcRes.startErr m => Except.error m
  | ProcRes.done c out =>
    if c ≠ 0 then Except.error ("exit status " ++ toString c) else Except.ok out

/-- `cmd.ProcessState.ExitCode()` after `Output` returned (cli.go line 295). -/
def procExitCode (r : ProcRes) : Int :=
  match r with
  | ProcRes.startErr _ => -1
  | ProcRes.done c _ => c

/-- The argument-conversion loop of `funcExecImpl` (cli.go lines 281-288):
every element must be a string. -/
def strListOf : List Value → Option (List String)
  | [] => some []
  | Value.str s :: rest => (strListOf rest).map (fun cmds => s :: cmds)
  | _ :: _ => none

/-- The input check of `funcExecImpl` (cli.go lines 266-272): a string input
is used as is, a nil input (jq null) becomes the empty string, anything else
is an error. -/
def execInput : Value → Except String String
  | Value.str s => Except.ok s
  | Value.null => Except.ok ""
  | _ => Except.error "exec/2 filter input must be string"

/-- The body of `funcExecImpl` after input resolution (cli.go lines 273-298):
the first argument must be a string (the executable path), the second an
array of strings; the child then runs with the resolved input on stdin; a
start failure or non-zero exit is an error, a zero exit returns the captured
standard output as a string. -/
def execCore (proc : ProcOracle) (funcname : String) (input : String)
    (arg0 arg1 : Value) : String ⊕ Value :=
  match arg0 with
  | Value.str path =>
    match arg1 with
    | Value.arr args =>
      match strListOf args with
      | some cmds =>
        match cmdOutput (proc path cmds input) with
        | Except.error e => Sum.inl e
        | Except.ok b =>
          if procExitCode (proc path cmds input) ≠ 0 then
            Sum.inl (funcname ++ "/2 returns non-zero status")
          else Sum.inr (Value.str b)
      | none => Sum.inl (funcname ++ "/2 the second argument must be array of string")
    | _ => Sum.inl (funcname ++ "/2 the second argument must be array of string")
  | _ => Sum.inl (funcname ++ "/2 the first argument must be string")

/-- `funcExecImpl` (cli.go lines 265-299). -/
def funcExecImpl (proc : ProcOracle) (funcname : String) (i : Value)
    (arg0 arg1 : Value) : String ⊕ Value :=
  match execInput i with
  | Except.error e => Sum.inl e
  | Except.ok input => execCore proc funcname input arg0 arg1

/-- `funcExec` (cli.go lines 257-259): a nil filter input, hence empty
standard input for the child. -/
def funcExec (proc : ProcOracle) (arg0 arg1 : Value) : String ⊕ Value :=
  funcExecImpl proc "exec" Value.null arg0 arg1

/-- `funcExecPipe` (cli.go lines 261-263): the filter's own input value is
passed through. -/
def funcExecPipe (proc : ProcOracle) (i : Value) (arg0 arg1 : Value) : String ⊕ Value :=
  funcExecImpl proc "execpipe" i arg0 arg1

/-- An error `processJSON` (part_000, v0.7.0) can return: a JSON parse error
carrying the source name, the buffered text and the cause, or an error
returned by `printValue` for one evaluation. -/
inductive PJErr where
  | parseErr (fname buffered cause : String) : PJErr
  | printErr (msg : String) : PJErr
deriving DecidableEq

/-- A JSON source as the incremental decoder of `processJSON` sees it: the
successfully decoded documents in order, then either clean end of input
(`none`) or a decode failure with its buffered text and cause. -/
structure JSONStream where
  fname : String
  docs : List Value
  decodeFailure : Option (String × String)

/-- The decode loop of `processJSON` (part_000 lines 279-303), with the
accumulator `vs` of slurped values.  Returns the list of evaluator
invocation inputs (the values passed to `code.Run`) in order, and the
returned error if any.  `run` models `printValue` composed with `code.Run`
for one input value. -/
def processJSONLoop (slurp : Bool) (run : Value → Option String) (fname : String) :
    List Value → Option (String × String) → List Value → List Value × Option PJErr
  | [], none, vs =>
    if slurp then ([Value.arr vs], (run (Value.arr vs)).map PJErr.printErr)
    else ([], none)
  | [], some (buf, cause), _vs => ([], some (PJErr.parseErr fname buf cause))
  | v :: rest, tail, vs =>
    if slurp then processJSONLoop slurp run fname rest tail (vs ++ [v])
    else
      match run v with
      | some e => ([v], some (PJErr.printErr e))
      | none =>
        let p := processJSONLoop slurp run fname rest tail vs
        (v :: p.1, p.2)

/-- `processJSON` (part_000 lines 279-303). -/
def processJSON (slurp : Bool) (run : Value → Option String) (s : JSONStream) :
    List Value × Option PJErr :=
  processJSONLoop slurp run s.fname s.docs s.decodeFailure []

/-- A configuration with every output flag off. -/
def defaultCfg : Cfg := ⟨false, false, false, false, false, none, false⟩

/-- A configuration with only YAML output on. -/
def yamlCfg : Cfg := ⟨false, false, false, false, true, none, false⟩

/-- A configuration with only join-output on. -/
def joinCfg : Cfg := ⟨false, false, true, false, false, none, false⟩

/-- A configuration requesting indentation -1. -/
def negCfg : Cfg := ⟨false, false, false, false, false, some (-1), false⟩

/-- A configuration requesting both YAML output and tab indentation. -/
def yamlTabCfg : Cfg := ⟨false, false, false, false, true, none, true⟩

/-- An ordinary error value, implementing neither CLI interface. -/
def oopsErr : GoErr := ⟨"oops", none, false⟩

/-! ## Helper lemmas -/

theorem printValues_nil (cfg : Cfg) (st : RunSt) :
    printValues cfg [] st = ⟨[], st, none⟩ := rfl

theorem printValues_errItem (cfg : Cfg) (e : GoErr) (rs : List (GoErr ⊕ Value)) (st : RunSt) :
    printValues cfg (Sum.inl e :: rs) st = ⟨[], st, some e⟩ := rfl

theorem printValues_valItem (cfg : Cfg) (v : Value) (rs : List (GoErr ⊕ Value)) (st : RunSt) :
    printValues cfg (Sum.inr v :: rs) st =
      (let st1 : RunSt := if st.yamlSep then st else { st with yamlSep := cfg.outputYAML }
       let st2 : RunSt :=
         match st1.exitErr with
         | none => st1
         | some _ => { st1 with exitErr := some (falsyCode v) }
       let p := printValues cfg rs st2
       ⟨(if st.yamlSep then [OutEv.sep] else []) ++ OutEv.doc v ::
          ((if !cfg.outputJoin && !cfg.outputYAML then
              (if cfg.outputNul then [OutEv.nul] else [OutEv.nl]) else []) ++ p.out),
        p.st, p.err⟩) := rfl

theorem lastCode_cons (c : Nat) (v : Value) (vs : List Value) :
    lastCode c (v :: vs) = lastCode (falsyCode v) vs := rfl

theorem lastCode_append (c : Nat) (xs ys : List Value) :
    lastCode c (xs ++ ys) = lastCode (lastCode c xs) ys := by
  simp [lastCode, List.foldl_append]

theorem lastCode_getLast (c : Nat) (vs : List Value) :
    lastCode c vs =
      (match vs.getLast? with
       | none => c
       | some v => falsyCode v) := by
  induction vs using List.reverseRecOn with
  | nil => rfl
  | append_singleton xs x _ => simp [lastCode, List.foldl_append]

theorem printValues_exitErr (cfg : Cfg) :
    ∀ (rs : List (GoErr ⊕ Value)) (st : RunSt) (c : Nat), st.exitErr = some c →
      ((printValues cfg rs st).st).exitErr = some (lastCode c (printedOfResults rs))
  | [], st, c, h => by simpa [printValues_nil, printedOfResults, lastCode] using h
  | Sum.inl e :: rs, st, c, h => by
    simpa [printValues_errItem, printedOfResults, lastCode] using h
  | Sum.inr v :: rs, st, c, h => by
    obtain ⟨ys, oe⟩ := st
    simp only at h
    subst h
    rw [printValues_valItem]
    cases ys <;>
      simpa [printedOfResults, lastCode_cons] using
        printValues_exitErr cfg rs _ (falsyCode v) rfl

theorem printValues_exitErr_none (cfg : Cfg) :
    ∀ (rs : List (GoErr ⊕ Value)) (st : RunSt), st.exitErr = none →
      ((printValues cfg rs st).st).exitErr = none
  | [], st, h => by simpa [printValues_nil] using h
  | Sum.inl e :: rs, st, h => by simpa [printValues_errItem] using h
  | Sum.inr v :: rs, st, h => by
    obtain ⟨ys, oe⟩ := st
    simp only at h
    subst h
    rw [printValues_valItem]
    cases ys <;> simpa using printValues_exitErr_none cfg rs _ rfl

theorem yamlEvsFrom_append (b : Bool) (xs ys : List Value) :
    yamlEvsFrom b (xs ++ ys) = yamlEvsFrom b xs ++ yamlEvsFrom (b || !xs.isEmpty) ys := by
  induction xs generalizing b with
  | nil => simp [yamlEvsFrom]
  | cons x xs ih => simp [yamlEvsFrom, ih true]

theorem printValues_yaml (cfg : Cfg) (hy : cfg.outputYAML = true) :
    ∀ (rs : List (GoErr ⊕ Value)) (st : RunSt),
      (printValues cfg rs st).out = yamlEvsFrom st.yamlSep (printedOfResults rs)
      ∧ ((printValues cfg rs st).st).yamlSep = (st.yamlSep || !(printedOfResults rs).isEmpty)
  | [], st => by simp [printValues_nil, printedOfResults, yamlEvsFrom]
  | Sum.inl e :: rs, st => by simp [printValues_errItem, printedOfResults, yamlEvsFrom]
  | Sum.inr v :: rs, st => by
    obtain ⟨ys, oe⟩ := st
    rw [printValues_valItem]
    have hterm : (!cfg.outputJoin && !cfg.outputYAML) = false := by simp [hy]
    cases ys <;> cases oe <;>
      simp [hy, hterm, printedOfResults, yamlEvsFrom,
        printValues_yaml cfg hy rs ⟨true, none⟩,
        printValues_yaml cfg hy rs ⟨true, some (falsyCode v)⟩]

theorem process_nil (cfg : Cfg) (eval : Value → List (GoErr ⊕ Value)) (st : RunSt)
    (acc : Option GoErr) : process cfg eval [] st acc = ⟨[], [], st, acc⟩ := rfl

theorem process_errRec (cfg : Cfg) (eval : Value → List (GoErr ⊕ Value)) (e : GoErr)
    (rest : List (GoErr ⊕ Value)) (st : RunSt) (acc : Option GoErr) :
    process cfg eval (Sum.inl e :: rest) st acc =
      (let p := process cfg eval rest st (some (emptyError e))
       ⟨p.out, printErrorDiag e ++ p.errs, p.st, p.err⟩) := rfl

theorem process_valRec (cfg : Cfg) (eval : Value → List (GoErr ⊕ Value)) (v : Value)
    (rest : List (GoErr ⊕ Value)) (st : RunSt) (acc : Option GoErr) :
    process cfg eval (Sum.inr v :: rest) st acc =
      (let q := printValues cfg (eval v) st
       let p := process cfg eval rest q.st (accAfter acc q.err)
       ⟨q.out ++ p.out, diagAfter q.err ++ p.errs, p.st, p.err⟩) := rfl

theorem process_exitErr (cfg : Cfg) (eval : Value → List (GoErr ⊕ Value)) :
    ∀ (inputs : List (GoErr ⊕ Value)) (st : RunSt) (acc : Option GoErr) (c : Nat),
      st.exitErr = some c →
      ((process cfg eval inputs st acc).st).exitErr =
        some (lastCode c (runPrintedVals eval inputs))
  | [], st, acc, c, h => by simpa [process_nil, runPrintedVals, lastCode] using h
  | Sum.inl e :: rest, st, acc, c, h => by
    rw [process_errRec]
    simpa [runPrintedVals] using process_exitErr cfg eval rest st _ c h
  | Sum.inr v :: rest, st, acc, c, h => by
    rw [process_valRec]
    have hq := printValues_exitErr cfg (eval v) st c h
    simpa [runPrintedVals, lastCode_append] using
      process_exitErr cfg eval rest (printValues cfg (eval v) st).st _
        (lastCode c (printedOfResults (eval v))) hq

theorem not_isEmpty_append (xs ys : List Value) :
    (!(xs ++ ys).isEmpty) = (!xs.isEmpty || !ys.isEmpty) := by
  cases xs <;> simp

theorem process_yaml (cfg : Cfg) (eval : Value → List (GoErr ⊕ Value))
    (hy : cfg.outputYAML = true) :
    ∀ (inputs : List (GoErr ⊕ Value)) (st : RunSt) (acc : Option GoErr),
      (process cfg eval inputs st acc).out =
        yamlEvsFrom st.yamlSep (runPrintedVals eval inputs)
      ∧ ((process cfg eval inputs st acc).st).yamlSep =
        (st.yamlSep || !(runPrintedVals eval inputs).isEmpty)
  | [], st, acc => by simp [process_nil, runPrintedVals, yamlEvsFrom]
  | Sum.inl e :: rest, st, acc => by
    rw [process_errRec]
    simpa [runPrintedVals] using process_yaml cfg eval hy rest st (some (emptyError e))
  | Sum.inr v :: rest, st, acc => by
    rw [process_valRec]
    have hq := printValues_yaml cfg hy (eval v) st
    have hp := process_yaml cfg eval hy rest (printValues cfg (eval v) st).st
      (accAfter acc (printValues cfg (eval v) st).err)
    simp [runPrintedVals, yamlEvsFrom_append, hq.1, hq.2, hp.1, hp.2,
      not_isEmpty_append, Bool.or_assoc]

theorem yamlEvsFrom_true (vs : List Value) :
    yamlEvsFrom true vs = (vs.map fun w => [OutEv.sep, OutEv.doc w]).flatten := by
  induction vs with
  | nil => rfl
  | cons v vs ih => simp [yamlEvsFrom, ih]

theorem yamlEvsFrom_false (vs : List Value) :
    yamlEvsFrom false vs = yamlSepDocs vs := by
  cases vs with
  | nil => rfl
  | cons v vs => simp [yamlEvsFrom, yamlSepDocs, yamlEvsFrom_true]

theorem printValues_split (cfg : Cfg) (e : GoErr) :
    ∀ (ps : List Value) (rest : List (GoErr ⊕ Value)) (st : RunSt),
      printValues cfg (ps.map Sum.inr ++ Sum.inl e :: rest) st =
        ⟨(printValues cfg (ps.map Sum.inr) st).out,
         (printValues cfg (ps.map Sum.inr) st).st, some e⟩
  | [], rest, st => by simp [printValues_errItem, printValues_nil]
  | p :: ps, rest, st => by
    simp only [List.map_cons, List.cons_append, printValues_valItem]
    rw [printValues_split cfg e ps rest]

theorem printValues_err_mem (cfg : Cfg) :
    ∀ (rs : List (GoErr ⊕ Value)) (st : RunSt) (e : GoErr),
      (printValues cfg rs st).err = some e → Sum.inl e ∈ rs
  | [], _, _, h => by simp [printValues_nil] at h
  | Sum.inl e' :: rs, st, e, h => by
    simp only [printValues_errItem, Option.some_inj] at h
    subst h
    exact List.mem_cons_self _ _
  | Sum.inr v :: rs, st, e, h => by
    rw [printValues_valItem] at h
    exact List.mem_cons_of_mem _ (printValues_err_mem cfg rs _ e h)

theorem emptyError_wrapped (e : GoErr) (he : plainErr e) : wrappedErr (emptyError e) := by
  obtain ⟨h1, _⟩ := he
  simp [wrappedErr, emptyError, h1]

theorem accAfter_isSome (acc : Option GoErr) (o : Option GoErr) (h : acc.isSome = true) :
    (accAfter acc o).isSome = true := by
  cases o <;> simp [accAfter, h]

theorem process_err_isSome (cfg : Cfg) (eval : Value → List (GoErr ⊕ Value)) :
    ∀ (inputs : List (GoErr ⊕ Value)) (st : RunSt) (acc : Option GoErr),
      acc.isSome = true → ((process cfg eval inputs st acc).err).isSome = true
  | [], st, acc, h => by simpa [process_nil] using h
  | Sum.inl e :: rest, st, acc, h => by
    rw [process_errRec]
    exact process_err_isSome cfg eval rest st (some (emptyError e)) rfl
  | Sum.inr v :: rest, st, acc, h => by
    rw [process_valRec]
    exact process_err_isSome cfg eval rest _ _ (accAfter_isSome acc _ h)

theorem process_err_wrapped (cfg : Cfg) (eval : Value → List (GoErr ⊕ Value))
    (hev : plainEval eval) :
    ∀ (inputs : List (GoErr ⊕ Value)) (st : RunSt) (acc : Option GoErr),
      plainInputs inputs →
      (∀ g, acc = some g → wrappedErr g) →
      ∀ g, (process cfg eval inputs st acc).err = some g → wrappedErr g
  | [], st, acc, _, hacc, g, h => by
    rw [process_nil] at h
    exact hacc g h
  | Sum.inl e :: rest, st, acc, hin, hacc, g, h => by
    rw [process_errRec] at h
    refine process_err_wrapped cfg eval hev rest st (some (emptyError e))
      (fun e' he' => hin e' (List.mem_cons_of_mem _ he')) ?_ g h
    intro g' hg'
    obtain rfl : emptyError e = g' := by simpa using hg'
    exact emptyError_wrapped e (hin e (List.mem_cons_self _ _))
  | Sum.inr v :: rest, st, acc, hin, hacc, g, h => by
    rw [process_valRec] at h
    refine process_err_wrapped cfg eval hev rest _ _
      (fun e' he' => hin e' (List.mem_cons_of_mem _ he')) ?_ g h
    intro g' hg'
    cases hq : (printValues cfg (eval v) st).err with
    | none => exact hacc g' (by simpa [accAfter, hq] using hg')
    | some e' =>
      obtain rfl : emptyError e' = g' := by simpa [accAfter, hq] using hg'
      exact emptyError_wrapped e' (hev v e' (printValues_err_mem cfg (eval v) st e' hq))

/-! ## Claim theorems -/

/-- Claim C4: for every requested indentation count n, a negative n makes the run
fail before any input is read with the "negative indentation count" message,
n > 9 makes it fail with the "too many indentation count" message, and
0 ≤ n ≤ 9 passes the configuration validation so the run proceeds
(absent the independent YAML-output/tab rejection).  The failing result is
the same for every evaluator and every input list: nothing is read. -/
theorem indentation_bounds (es : Bool) (cfg : Cfg) (eval : Value → List (GoErr ⊕ Value))
    (inputs : List (GoErr ⊕ Value)) (n : Int) (h : cfg.outputIndent = some n) :
    (n < 0 → runPipeline es cfg eval inputs =
      ⟨[], ["gojq: " ++ ("negative indentation count: " ++ toString n)], exitCodeDefaultErr⟩)
    ∧ (9 < n → runPipeline es cfg eval inputs =
      ⟨[], ["gojq: " ++ ("too many indentation count: " ++ toString n)], exitCodeDefaultErr⟩)
    ∧ (0 ≤ n → n ≤ 9 → ¬(cfg.outputYAML = true ∧ cfg.outputTab = true) →
      validateConfig cfg = Except.ok () ∧
      runPipeline es cfg eval inputs = runAfterValidate es cfg eval inputs) := by
  refine ⟨?_, ?_, ?_⟩
  · intro hn
    have h9 : ¬(9 : Int) < n := by omega
    simp [runPipeline, validateConfig, checkIndentation, h, h9, hn]
  · intro hn
    simp [runPipeline, validateConfig, checkIndentation, h, hn]
  · intro h0 h9 hyt
    have hgt : ¬(9 : Int) < n := by omega
    have hlt : ¬n < 0 := by omega
    have hb : (cfg.outputYAML && cfg.outputTab) = false := by
      cases hY : cfg.outputYAML <;> cases hT : cfg.outputTab <;> simp_all
    constructor <;> simp [runPipeline, validateConfig, checkIndentation, h, hgt, hlt, hb]

/-- Claim C4 witness: requesting indentation -1 fails with the negative-indentation
message and the default failure exit code, with no input consumed. -/
theorem indentation_bounds_witness :
    negCfg.outputIndent = some (-1) ∧
    runPipeline false negCfg (fun _ => []) [] =
      ⟨[], ["gojq: " ++ ("negative indentation count: " ++ toString (-1 : Int))],
       exitCodeDefaultErr⟩ :=
  ⟨rfl, (indentation_bounds false negCfg (fun _ => []) [] (-1) rfl).1 (by decide)⟩

/-- Claim C5: whenever YAML output and tab indentation are both requested, the
configuration validation fails, so the run is rejected before any input is
read — the result is the same for every evaluator, every input list and
every other flag. -/
theorem yaml_tab_always_rejected (es : Bool) (cfg : Cfg)
    (eval : Value → List (GoErr ⊕ Value)) (inputs : List (GoErr ⊕ Value))
    (hy : cfg.outputYAML = true) (ht : cfg.outputTab = true) :
    ∃ msg, validateConfig cfg = Except.error msg ∧
      runPipeline es cfg eval inputs = ⟨[], ["gojq: " ++ msg], exitCodeDefaultErr⟩ := by
  cases hi : checkIndentation cfg.outputIndent with
  | some e =>
    exact ⟨e, by simp [validateConfig, hi], by simp [runPipeline, validateConfig, hi]⟩
  | none =>
    refine ⟨"cannot use tabs for YAML output", ?_, ?_⟩ <;>
      simp [runPipeline, validateConfig, hi, hy, ht]

/-- Claim C5 witness: the configuration with exactly YAML output and tab
indentation set is rejected before input. -/
theorem yaml_tab_always_rejected_witness :
    yamlTabCfg.outputYAML = true ∧ yamlTabCfg.outputTab = true ∧
    ∃ msg, validateConfig yamlTabCfg = Except.error msg ∧
      runPipeline false yamlTabCfg (fun _ => []) [] =
        ⟨[], ["gojq: " ++ msg], exitCodeDefaultErr⟩ :=
  ⟨rfl, rfl, yaml_tab_always_rejected false yamlTabCfg (fun _ => []) [] rfl rfl⟩

/-- Claim C1 counterexample: with exit-status mode on, a run whose first input
record is an error and whose last (and only) printed value is `true` exits
with the default failure code, not success — the exit code is not determined
solely by the last successfully printed value. -/
theorem exitStatus_lastPrinted_cex :
    (runPrintedVals (fun _ => [Sum.inr (Value.bool true)])
      [Sum.inl oopsErr, Sum.inr Value.null]).getLast? = some (Value.bool true)
    ∧ isFalsy (Value.bool true) = false
    ∧ (runAfterValidate true defaultCfg (fun _ => [Sum.inr (Value.bool true)])
      [Sum.inl oopsErr, Sum.inr Value.null]).exitCode = exitCodeDefaultErr
    ∧ exitCodeDefaultErr ≠ exitCodeOK :=
  ⟨rfl, rfl, rfl, by decide⟩

/-- Claim C1 (amended): with exit-status mode enabled, provided the run recorded no
failure (the orchestrator's error variable is nil at exhaustion), the process
exit code is determined solely by the last successfully printed value across
the entire run — per whole run, not per input record: the "no value" code
when nothing was printed, the falsy code when the last printed value is null
or false, success otherwise.  (When a failure was recorded, the failure's
non-zero exit code takes precedence over the accumulator.) -/
theorem exitStatus_lastPrinted (cfg : Cfg) (eval : Value → List (GoErr ⊕ Value))
    (inputs : List (GoErr ⊕ Value)) (hfail : (runProc true cfg eval inputs).err = none) :
    (runAfterValidate true cfg eval inputs).exitCode =
      (match (runPrintedVals eval inputs).getLast? with
       | none => exitCodeNoValueErr
       | some v => if isFalsy v then exitCodeFalsyErr else exitCodeOK) := by
  have hacc : ((runProc true cfg eval inputs).st).exitErr =
      some (lastCode exitCodeNoValueErr (runPrintedVals eval inputs)) :=
    process_exitErr cfg eval inputs (initSt true) none exitCodeNoValueErr rfl
  rw [lastCode_getLast] at hacc
  simp only [runAfterValidate, hfail, hacc, runFinalErr, mkExitCodeError, if_pos]
  cases h : (runPrintedVals eval inputs).getLast? <;> simp [h, falsyCode]

/-- Claim C1 witness: a failure-free run printing only `false` exits with the
falsy code. -/
theorem exitStatus_lastPrinted_witness :
    (runProc true defaultCfg (fun v => [Sum.inr v]) [Sum.inr (Value.bool false)]).err = none
    ∧ (runAfterValidate true defaultCfg (fun v => [Sum.inr v])
      [Sum.inr (Value.bool false)]).exitCode = exitCodeFalsyErr :=
  ⟨rfl, (exitStatus_lastPrinted defaultCfg (fun v => [Sum.inr v])
    [Sum.inr (Value.bool false)] rfl).trans rfl⟩

/-- Claim C2 counterexample: a result sequence holding an error followed by the
value `true` produces no output-stream write at all — the value after the
error is never marshaled or written, refuting that the orchestrator keeps
draining the same result sequence past an error. -/
theorem resultError_abandons_rest_cex :
    (runProc false defaultCfg (fun _ => [Sum.inl oopsErr, Sum.inr (Value.bool true)])
      [Sum.inr Value.null]).out = []
    ∧ (runProc false defaultCfg (fun _ => [Sum.inl oopsErr, Sum.inr (Value.bool true)])
      [Sum.inr Value.null]).errs = ["gojq: " ++ "oops"] :=
  ⟨rfl, rfl⟩

/-- Claim C2 (amended): when an input value's result sequence is some printed
values followed by an error, the orchestrator prints the values before the
error, prints the error's diagnostic, records the failure, and abandons the
remainder of that result sequence (the result is independent of what follows
the error), continuing with the next input record. -/
theorem resultError_abandons_rest (cfg : Cfg) (eval : Value → List (GoErr ⊕ Value))
    (st : RunSt) (acc : Option GoErr) (v : Value) (moreInputs : List (GoErr ⊕ Value))
    (ps : List Value) (e : GoErr) (rest : List (GoErr ⊕ Value))
    (h : eval v = ps.map Sum.inr ++ Sum.inl e :: rest) :
    process cfg eval (Sum.inr v :: moreInputs) st acc =
      (let q := printValues cfg (ps.map Sum.inr) st
       let p := process cfg eval moreInputs q.st (some (emptyError e))
       ⟨q.out ++ p.out, printErrorDiag e ++ p.errs, p.st, p.err⟩) := by
  rw [process_valRec]
  simp only [h, printValues_split, accAfter, diagAfter]

/-- Claim C2 witness: instantiating the amended statement on a concrete run whose
single result sequence is an error followed by a value. -/
theorem resultError_abandons_rest_witness :
    ((fun (_ : Value) => [Sum.inl oopsErr, Sum.inr (Value.bool true)]) Value.null =
      ([] : List Value).map Sum.inr ++ Sum.inl oopsErr :: [Sum.inr (Value.bool true)])
    ∧ process defaultCfg (fun _ => [Sum.inl oopsErr, Sum.inr (Value.bool true)])
      [Sum.inr Value.null] (initSt false) none =
      ⟨[], ["gojq: " ++ "oops"], initSt false, some (emptyError oopsErr)⟩ :=
  ⟨rfl, (resultError_abandons_rest defaultCfg
    (fun _ => [Sum.inl oopsErr, Sum.inr (Value.bool true)]) (initSt false) none
    Value.null [] [] oopsErr [Sum.inr (Value.bool true)] rfl).trans rfl⟩

theorem process_append (cfg : Cfg) (eval : Value → List (GoErr ⊕ Value)) :
    ∀ (xs ys : List (GoErr ⊕ Value)) (st : RunSt) (acc : Option GoErr),
      process cfg eval (xs ++ ys) st acc =
        (let p := process cfg eval xs st acc
         let q := process cfg eval ys p.st p.err
         ⟨p.out ++ q.out, p.errs ++ q.errs, q.st, q.err⟩)
  | [], ys, st, acc => by simp [process_nil]
  | Sum.inl e :: xs, ys, st, acc => by
    simp only [List.cons_append, process_errRec,
      process_append cfg eval xs ys st (some (emptyError e))]
    simp
  | Sum.inr v :: xs, ys, st, acc => by
    simp only [List.cons_append, process_valRec]
    rw [process_append cfg eval xs ys]
    simp

/-- Claim C3: for every run and every input record of it that is an ordinary
error (all errors in the run being ordinary), the orchestrator — at whatever
state and accumulator it has reached when it pulls that record — prints the
record's diagnostic and continues with the remaining records from the same
state; across the whole run the bad record contributes exactly one
diagnostic line; the run's eventual return is an empty-error wrapper, which
the top level does not print a second time (the run-level diagnostics are
exactly those the orchestrator already printed), and the process exits with
the non-zero default failure code. -/
theorem inputRecordError_run (es : Bool) (cfg : Cfg)
    (eval : Value → List (GoErr ⊕ Value)) (e : GoErr)
    (pre rest : List (GoErr ⊕ Value)) (he : plainErr e) (hpre : plainInputs pre)
    (hrest : plainInputs rest) (hev : plainEval eval) :
    (∀ (st : RunSt) (acc : Option GoErr),
      process cfg eval (Sum.inl e :: rest) st acc =
        (let p := process cfg eval rest st (some (emptyError e))
         ⟨p.out, ("gojq: " ++ e.msg) :: p.errs, p.st, p.err⟩))
    ∧ (runProc es cfg eval (pre ++ Sum.inl e :: rest)).errs =
      (runProc es cfg eval pre).errs ++ ("gojq: " ++ e.msg) ::
        (process cfg eval rest ((runProc es cfg eval pre).st)
          (some (emptyError e))).errs
    ∧ (∃ g, (runProc es cfg eval (pre ++ Sum.inl e :: rest)).err = some g ∧
        g.isEmpty = true)
    ∧ (runAfterValidate es cfg eval (pre ++ Sum.inl e :: rest)).errs =
      (runProc es cfg eval (pre ++ Sum.inl e :: rest)).errs
    ∧ (runAfterValidate es cfg eval (pre ++ Sum.inl e :: rest)).exitCode =
      exitCodeDefaultErr := by
  have hstep : ∀ (st : RunSt) (acc : Option GoErr),
      process cfg eval (Sum.inl e :: rest) st acc =
        (let p := process cfg eval rest st (some (emptyError e))
         ⟨p.out, ("gojq: " ++ e.msg) :: p.errs, p.st, p.err⟩) := by
    intro st acc
    rw [process_errRec]
    simp [printErrorDiag, he.2]
  have hin : plainInputs (pre ++ Sum.inl e :: rest) := by
    intro e' he'
    rcases List.mem_append.mp he' with h | h
    · exact hpre e' h
    · rcases List.mem_cons.mp h with h | h
      · obtain rfl : e' = e := by simpa using h
        exact he
      · exact hrest e' h
  have hdec : runProc es cfg eval (pre ++ Sum.inl e :: rest) =
      (let p := runProc es cfg eval pre
       let p2 := process cfg eval rest p.st (some (emptyError e))
       ⟨p.out ++ p2.out, p.errs ++ ("gojq: " ++ e.msg) :: p2.errs, p2.st, p2.err⟩) := by
    rw [runProc, process_append cfg eval pre (Sum.inl e :: rest) (initSt es) none]
    simp only [hstep]
    rfl
  have hsome : ((runProc es cfg eval (pre ++ Sum.inl e :: rest)).err).isSome = true := by
    rw [hdec]
    exact process_err_isSome cfg eval rest ((runProc es cfg eval pre).st)
      (some (emptyError e)) rfl
  obtain ⟨g, hg⟩ := Option.isSome_iff_exists.mp hsome
  have hw : wrappedErr g :=
    process_err_wrapped cfg eval hev (pre ++ Sum.inl e :: rest) (initSt es) none hin
      (fun g' h' => absurd h' (by simp)) g hg
  refine ⟨hstep, ?_, ⟨g, hg, hw.1⟩, ?_, ?_⟩
  · rw [hdec]
  · cases es <;>
      simp [runAfterValidate, runFinalErr, hg, hw.1, hw.2, printErrorDiag,
        exitCodeDefaultErr]
  · cases es <;>
      simp [runAfterValidate, runFinalErr, hg, hw.1, hw.2, exitCodeDefaultErr]

/-- Claim C3 witness: a run whose error record is preceded by a value record
(the valid-file-then-malformed-file scenario) exits with the default failure
code. -/
theorem inputRecordError_run_witness :
    plainErr oopsErr ∧
    (runAfterValidate false defaultCfg (fun _ => [Sum.inr (Value.bool true)])
      ([Sum.inr Value.null] ++ Sum.inl oopsErr :: [])).exitCode =
      exitCodeDefaultErr :=
  ⟨⟨rfl, rfl⟩,
   (inputRecordError_run false defaultCfg (fun _ => [Sum.inr (Value.bool true)])
     oopsErr [Sum.inr Value.null] [] ⟨rfl, rfl⟩
     (fun _ h => absurd h (by simp))
     (fun _ h => absurd h (List.not_mem_nil _))
     (fun _ _ h => absurd h (by simp))).2.2.2.2⟩

theorem slurp_loop_clean (run : Value → Option String) (fname : String) :
    ∀ (docs vs : List Value),
      processJSONLoop true run fname docs none vs =
        ([Value.arr (vs ++ docs)], (run (Value.arr (vs ++ docs))).map PJErr.printErr)
  | [], vs => by simp [processJSONLoop]
  | d :: docs, vs => by
    rw [processJSONLoop, if_pos rfl, slurp_loop_clean run fname docs (vs ++ [d])]
    simp

theorem slurp_loop_decodeErr (run : Value → Option String) (fname buf cause : String) :
    ∀ (docs vs : List Value),
      processJSONLoop true run fname docs (some (buf, cause)) vs =
        ([], some (PJErr.parseErr fname buf cause))
  | [], vs => by simp [processJSONLoop]
  | d :: docs, vs => by
    rw [processJSONLoop, if_pos rfl, slurp_loop_decodeErr run fname buf cause docs (vs ++ [d])]

/-- Claim C6: in slurp mode, a source decoding cleanly into N documents causes
exactly one evaluator invocation, whose single input value is the ordered
sequence of all N decoded values in source order (the first component lists
the `code.Run` invocation inputs); a source whose decoding fails surfaces
the parse error instead, with no evaluator invocation — no partial slurp is
silently evaluated. -/
theorem slurp_single_invocation (run : Value → Option String) (fname : String)
    (docs : List Value) (buf cause : String) :
    processJSON true run ⟨fname, docs, none⟩ =
      ([Value.arr docs], (run (Value.arr docs)).map PJErr.printErr)
    ∧ processJSON true run ⟨fname, docs, some (buf, cause)⟩ =
      ([], some (PJErr.parseErr fname buf cause)) := by
  constructor
  · simpa [processJSON] using slurp_loop_clean run fname docs []
  · simpa [processJSON] using slurp_loop_decodeErr run fname buf cause docs []

theorem strListOf_map (cmds : List String) : strListOf (cmds.map Value.str) = some cmds := by
  induction cmds with
  | nil => rfl
  | cons c cs ih => simp [strListOf, ih]

/-- Claim C7: `exec` runs the executable with the given argument list and empty
standard input and, on exit status zero, returns the captured standard
output verbatim as a string; a non-zero exit or a start failure is an error.
`execpipe` behaves identically except that the filter's own input value is
piped to the child's standard input (both reduce to the same core, differing
only in the stdin argument; a nil input means empty stdin), and an input
value that is neither a string nor nil is an error. -/
theorem exec_execpipe_contract (proc : ProcOracle) (path out m s : String)
    (cmds : List String) (c : Int) :
    (proc path cmds "" = ProcRes.done 0 out →
      funcExec proc (Value.str path) (Value.arr (cmds.map Value.str)) =
        Sum.inr (Value.str out))
    ∧ (proc path cmds "" = ProcRes.done c out → c ≠ 0 →
      ∃ e, funcExec proc (Value.str path) (Value.arr (cmds.map Value.str)) = Sum.inl e)
    ∧ (proc path cmds "" = ProcRes.startErr m →
      funcExec proc (Value.str path) (Value.arr (cmds.map Value.str)) = Sum.inl m)
    ∧ (∀ arg0 arg1, funcExec proc arg0 arg1 = execCore proc "exec" "" arg0 arg1)
    ∧ (∀ arg0 arg1, funcExecPipe proc (Value.str s) arg0 arg1 =
        execCore proc "execpipe" s arg0 arg1)
    ∧ (proc path cmds s = ProcRes.done 0 out →
      funcExecPipe proc (Value.str s) (Value.str path) (Value.arr (cmds.map Value.str)) =
        Sum.inr (Value.str out))
    ∧ (∀ v arg0 arg1, (∀ t, v ≠ Value.str t) → v ≠ Value.null →
      ∃ e, funcExecPipe proc v arg0 arg1 = Sum.inl e) := by
  refine ⟨?_, ?_, ?_, fun arg0 arg1 => rfl, fun arg0 arg1 => rfl, ?_, ?_⟩
  · intro h
    simp [funcExec, funcExecImpl, execInput, execCore, strListOf_map, h, cmdOutput,
      procExitCode]
  · intro h hc
    refine ⟨"exit status " ++ toString c, ?_⟩
    simp [funcExec, funcExecImpl, execInput, execCore, strListOf_map, h, cmdOutput, hc]
  · intro h
    simp [funcExec, funcExecImpl, execInput, execCore, strListOf_map, h, cmdOutput]
  · intro h
    simp [funcExecPipe, funcExecImpl, execInput, execCore, strListOf_map, h, cmdOutput,
      procExitCode]
  · intro v arg0 arg1 hv hnull
    cases v with
    | str t => exact absurd rfl (hv t)
    | null => exact absurd rfl hnull
    | bool b => exact ⟨_, rfl⟩
    | num n => exact ⟨_, rfl⟩
    | arr vs => exact ⟨_, rfl⟩
    | obj kvs => exact ⟨_, rfl⟩

/-- Claim C7 witness: with an oracle echoing its stdin prefixed by `out:`, `exec`
returns the child's stdout for empty stdin, and `execpipe` on string input
"hi" returns the stdout for stdin "hi". -/
theorem exec_execpipe_contract_witness :
    funcExec (fun _ _ stdin => ProcRes.done 0 ("out:" ++ stdin))
      (Value.str "echo") (Value.arr [Value.str "a"]) = Sum.inr (Value.str ("out:" ++ "")) ∧
    funcExecPipe (fun _ _ stdin => ProcRes.done 0 ("out:" ++ stdin))
      (Value.str "hi") (Value.str "echo") (Value.arr [Value.str "a"]) =
      Sum.inr (Value.str ("out:" ++ "hi")) :=
  ⟨(exec_execpipe_contract (fun _ _ stdin => ProcRes.done 0 ("out:" ++ stdin))
      "echo" ("out:" ++ "") "" "" ["a"] 0).1 rfl,
   (exec_execpipe_contract (fun _ _ stdin => ProcRes.done 0 ("out:" ++ stdin))
      "echo" ("out:" ++ "hi") "" "hi" ["a"] 0).2.2.2.2.2.1 rfl⟩

/-- Claim C8: under YAML output, the whole run's output-stream writes are exactly
the marshaled documents with a literal `---` separator line immediately
before every document after the first and never before the first — across
all printed values of the run, spanning input records and `Marshal` calls,
because the separator flag lives on the orchestrator's per-run state. -/
theorem yaml_separator_pattern (es : Bool) (cfg : Cfg)
    (eval : Value → List (GoErr ⊕ Value)) (inputs : List (GoErr ⊕ Value))
    (hy : cfg.outputYAML = true) :
    (runProc es cfg eval inputs).out = yamlSepDocs (runPrintedVals eval inputs) := by
  rw [runProc, (process_yaml cfg eval hy inputs (initSt es) none).1]
  have h0 : (initSt es).yamlSep = false := rfl
  rw [h0, yamlEvsFrom_false]

/-- Claim C8 witness: a YAML run printing two documents across two input records
writes the first bare and a separator immediately before the second. -/
theorem yaml_separator_pattern_witness :
    yamlCfg.outputYAML = true ∧
    (runProc false yamlCfg (fun v => [Sum.inr v])
      [Sum.inr Value.null, Sum.inr (Value.bool true)]).out =
      [OutEv.doc Value.null, OutEv.sep, OutEv.doc (Value.bool true)] :=
  ⟨rfl, (yaml_separator_pattern false yamlCfg (fun v => [Sum.inr v])
    [Sum.inr Value.null, Sum.inr (Value.bool true)] rfl).trans rfl⟩

/-- Claim C9 counterexample: with the explicit color-output flag set, the run is
colorized (noColor = false) even though NO_COLOR is set to the non-empty
string "1" (and TERM is `dumb`) — the disable-color signal is not honored
unconditionally. -/
theorem noColor_env_cex :
    ("1" : String) ≠ "" ∧ computeNoColor true false "1" "dumb" false = false :=
  ⟨by decide, rfl⟩

/-- Claim C9 (amended): when neither the color-output nor the monochrome-output
flag is given, a non-empty NO_COLOR value unconditionally disables color, an
empty NO_COLOR value is treated as not set (the TTY probe decides), and a
terminal-type value `dumb` forces non-color output; the explicit flags take
precedence over both signals. -/
theorem noColor_env (noColorEnv termEnv : String) (fdTerminal : Bool) :
    (noColorEnv ≠ "" → computeNoColor false false noColorEnv termEnv fdTerminal = true)
    ∧ computeNoColor false false "" termEnv fdTerminal = !(isTTY termEnv fdTerminal)
    ∧ (termEnv = "dumb" → computeNoColor false false noColorEnv termEnv fdTerminal = true) := by
  refine ⟨fun h => by simp [computeNoColor, h], by simp [computeNoColor], fun h => ?_⟩
  by_cases hnc : noColorEnv = ""
  · simp [computeNoColor, hnc, isTTY, h]
  · simp [computeNoColor, hnc]

/-- Claim C9 witness: NO_COLOR="1" disables color when no explicit flag is given,
and TERM=dumb disables color when NO_COLOR is unset. -/
theorem noColor_env_witness :
    computeNoColor false false "1" "dumb" false = true ∧
    computeNoColor false false "" "dumb" true = true :=
  ⟨(noColor_env "1" "dumb" false).1 (by decide),
   (noColor_env "" "dumb" true).2.2 rfl⟩

/-- Claim C10: selecting join-output or NUL-output makes `createMarshaler` pick
exactly the marshaler it would pick with raw-output requested (for every
flag combination), and outside YAML mode a string result value is then
emitted as its raw bytes, unquoted and unescaped, instead of being
JSON-encoded. -/
theorem join_nul_imply_raw (cfg : Cfg) (s : String)
    (jenc : Bool → Int → Value → String) (yenc : Option Int → Value → String)
    (h : cfg.outputJoin = true ∨ cfg.outputNul = true) :
    createMarshaler cfg = createMarshaler { cfg with outputRaw := true }
    ∧ (cfg.outputYAML = false →
      marshalWith jenc yenc (createMarshaler cfg) (Value.str s) = s) := by
  have hb : (cfg.outputRaw || cfg.outputJoin || cfg.outputNul) = true := by
    rcases h with h | h <;> simp [h]
  constructor
  · cases hy : cfg.outputYAML <;>
      simp [createMarshaler, hy, hb, Bool.or_assoc]
  · intro hy
    simp [createMarshaler, hy, hb, marshalWith]

/-- Claim C10 witness: under join-output alone (raw-output off), the string "hi"
is marshaled to its raw bytes. -/
theorem join_nul_imply_raw_witness :
    (joinCfg.outputJoin = true ∨ joinCfg.outputNul = true) ∧
    marshalWith (fun _ _ _ => "json") (fun _ _ => "yaml") (createMarshaler joinCfg)
      (Value.str "hi") = "hi" :=
  ⟨Or.inl rfl, (join_nul_imply_raw joinCfg "hi" (fun _ _ _ => "json") (fun _ _ => "yaml")
    (Or.inl rfl)).2 rfl⟩
